import Mathlib

/-!
Shallow embedding of `org2mind.py` (repository Yevgnen/org2mind).

The Python program converts an org-style outline into a jsMind HTML page.
The core is `org2mind`: a single left-to-right pass over the input lines that
builds a rooted tree (`Node` dataclass) plus a metadata mapping, and the
stateful color allocator `random_color`.

Modelling decisions, all driven by the source:

* Python's `random.choice(colors)` draws from a pseudo-random stream that is a
  pure function of the seed set by `random.seed(args.seed)` in `__main__`.  We
  model that stream as an explicit parameter `FairStream`: an infinite sequence
  of palette indices together with a fairness bound guaranteeing that within
  any window of `bound + 1` consecutive draws some draw differs from any given
  color (true of any non-degenerate PRNG stream; required for the retry loop of
  `random_color` to exit).  The seed determines the stream, so "same seed" is
  modelled as "same `FairStream`".
* `uuid.uuid4().hex` (the `id` default of the `Node` dataclass) draws from the
  OS entropy source, which is *not* governed by `random.seed`.  It is modelled
  as a second, independent stream `u : Nat → String` consumed once per created
  node, in creation order.
* Python object identity and in-place mutation (`stack[-1].add_child(node)`
  mutates a node that is shared between the stack and the tree) are modelled
  with an explicit store: nodes live in an append-only list, `children` and the
  ancestor stack hold store indices, and mutation is `modifyAt` on the store.
* `meta` is a Python `dict` (insertion ordered, update-in-place); modelled as
  an association list with `metaInsert`.  The initial value `{'version': 0.2}`
  holds the Python float literal `0.2`, modelled as the rational it denotes
  (`MetaValue.num (0.2 : ℚ)`); no arithmetic is ever performed on it, only its
  type (number, not string) and identity matter.
* The regexes `^#\+(.+?):\s+(.+?)$` and `^(\*+)\s+(.+?)$` are applied by
  `re.match` to lines already stripped by `line.strip()`.  `matchMeta` and
  `matchHeading` implement the regex semantics on such stripped lines
  (no leading/trailing whitespace, no newline): the lazy key group takes the
  shortest nonempty prefix admitting a `: ` split, stars are the maximal
  leading run, `\s+` the maximal whitespace run after them.
-/

namespace O2M

/-- Python whitespace class `\s` (and the characters removed by `str.strip()`),
restricted to ASCII: space, tab, newline, carriage return, vertical tab,
form feed. -/
def isPySpace (c : Char) : Bool :=
  c = ' ' || c = '\t' || c = '\n' || c = '\r' || c = '\x0b' || c = '\x0c'

/-- `line.strip()` on a list of characters. -/
def pyStripList (l : List Char) : List Char :=
  ((l.dropWhile isPySpace).reverse.dropWhile isPySpace).reverse

/-- The fixed six-color palette of `random_color`. -/
def colors : List String :=
  ["#5EBD3E", "#FFB900", "#F78200", "#E23838", "#973999", "#009CDF"]

/-- The palette color at a stream index. -/
def colorOf (j : Fin 6) : String :=
  colors.getD j.1 ""

/-- The pseudo-random stream behind `random.choice(colors)`: the successive
palette indices the seeded generator would produce, plus a fairness bound
(within any `bound + 1` consecutive draws, some draw's color differs from any
given color).  The stream is a pure function of the seed passed to
`random.seed`, so a fixed seed is modelled as a fixed `FairStream`. -/
structure FairStream where
  s : Nat → Fin 6
  bound : Nat
  fair : ∀ (n : Nat) (c : String), ∃ i, i ≤ bound ∧ colorOf (s (n + i)) ≠ c

/-- The retry loop of `random_color`: probe stream positions `pos, pos+1, …`
and return the first whose color differs from `c` (the remembered
`random_color.last_color`).  `fuel` bounds the search; fairness guarantees the
bound is never reached. -/
def searchFrom (s : Nat → Fin 6) (c : String) : Nat → Nat → Option Nat
  | _, 0 => none
  | pos, fuel + 1 =>
    if colorOf (s pos) = c then searchFrom s c (pos + 1) fuel else some pos

/-- `random_color()`: draw colors from the stream starting at `pos` until one
differs from `last` (the `random_color.last_color` attribute; `none` when the
attribute is not yet set, in which case the first draw is accepted).  Returns
the color and the next unconsumed stream position. -/
def random_color (fs : FairStream) (pos : Nat) (last : Option String) :
    String × Nat :=
  match last with
  | none => (colorOf (fs.s pos), pos + 1)
  | some c =>
    match searchFrom fs.s c pos (fs.bound + 1) with
    | some i => (colorOf (fs.s i), i + 1)
    | none => (colorOf (fs.s pos), pos + 1)

/-- The sequence of colors emitted by `n` successive `random_color` calls,
threading the stream position and the `last_color` state. -/
def colorSeq (fs : FairStream) : Nat → Nat → Option String → List String
  | 0, _, _ => []
  | n + 1, pos, last =>
    let c := random_color fs pos last
    c.1 :: colorSeq fs n c.2 (some c.1)

/-- A value stored in the `meta` dict: either a Python string or the Python
number `0.2` from the initializer `meta = {'version': 0.2}`. -/
inductive MetaValue where
  | str : String → MetaValue
  | num : ℚ → MetaValue
deriving DecidableEq

/-- The `Node` dataclass.  `children` holds store indices (Python object
references); `id` is the `uuid.uuid4().hex` string drawn at creation. -/
structure Node where
  topic : String
  level : Nat
  id : String
  isroot : Bool
  expended : Bool
  direction : String
  children : List Nat
  background_color : Option String
  foreground_color : Option String
deriving DecidableEq

/-- Default used by total store lookups (`List.getD`); never reached on
indices actually present in the store. -/
def dummyNode : Node :=
  { topic := "", level := 0, id := "", isroot := false, expended := true,
    direction := "right", children := [], background_color := none,
    foreground_color := none }

/-- Replace the element at index `i` by `f` of it (in-place object mutation on
the store). -/
def modifyAt {α : Type} : List α → Nat → (α → α) → List α
  | [], _, _ => []
  | x :: xs, 0, f => f x :: xs
  | x :: xs, n + 1, f => x :: modifyAt xs n f

/-- `meta[key] = value` on a Python dict modelled as an association list:
overwrite in place if the key is present, else append. -/
def metaInsert (m : List (String × MetaValue)) (k : String) (v : MetaValue) :
    List (String × MetaValue) :=
  if m.any (fun p => p.1 = k) then
    m.map (fun p => if p.1 = k then (k, v) else p)
  else m ++ [(k, v)]

/-- Dict lookup. -/
def metaLookup (m : List (String × MetaValue)) (k : String) : Option MetaValue :=
  (m.find? (fun p => p.1 = k)).map (fun p => p.2)

/-- The run-constant foreground color `foreground_color = '#ffffff'`. -/
def foreground : String := "#ffffff"

/-- The mutable state of one `org2mind` call: the node store, the ancestor
stack (store indices, top last, as the Python list), the `meta` dict, the
`background_color` / `direction` / `level` locals, the allocator state
(`cpos`, `clast` = `random_color.last_color`), and the count of nodes created
so far (`uctr`, indexing the uuid stream). -/
structure ParseState where
  store : List Node
  stack : List Nat
  meta : List (String × MetaValue)
  background : Option String
  dir : Nat
  level : Int
  cpos : Nat
  clast : Option String
  uctr : Nat
deriving DecidableEq

/-- Regex `^#\+(.+?):\s+(.+?)$` after the literal `#+`: find the shortest
nonempty key prefix followed by `:`, at least one whitespace character, and a
nonempty remainder; returns (key, value). -/
def splitMeta : List Char → List Char → Option (List Char × List Char)
  | _, [] => none
  | key, c :: rest =>
    if c = ':' ∧ key ≠ [] then
      let ws := rest.takeWhile isPySpace
      let value := rest.dropWhile isPySpace
      if ws ≠ [] ∧ value ≠ [] then some (key, value)
      else splitMeta (key ++ [c]) rest
    else splitMeta (key ++ [c]) rest

/-- `re.match(r'^#\+(.+?):\s+(.+?)$', line)` on a stripped line. -/
def matchMeta : List Char → Option (List Char × List Char)
  | c1 :: c2 :: rest =>
    if c1 = '#' ∧ c2 = '+' then splitMeta [] rest else none
  | _ => none

/-- `re.match(r'^(\*+)\s+(.+?)$', line)` on a stripped line: a maximal
nonempty run of `*`, at least one whitespace character, a nonempty rest.
Returns (star count, heading text). -/
def matchHeading (l : List Char) : Option (Nat × List Char) :=
  let stars := l.takeWhile (fun c => c = '*')
  let rest1 := l.dropWhile (fun c => c = '*')
  if stars = [] then none
  else
    let ws := rest1.takeWhile isPySpace
    let text := rest1.dropWhile isPySpace
    if ws = [] ∨ text = [] then none else some (stars.length, text)

/-- The heading branch of the loop body of `org2mind`: create the node, apply
the depth-1 direction/color special case, pop the stack, attach, push. -/
def processHeading (fs : FairStream) (u : Nat → String) (st : ParseState)
    (hd : Nat × List Char) : ParseState :=
  let depth := hd.1
  let node0 : Node :=
    { topic := String.mk hd.2, level := depth, id := u st.uctr, isroot := false,
      expended := true, direction := "right", children := [],
      background_color := st.background, foreground_color := some foreground }
  let p1 :=
    if depth = 1 then
      let c := random_color fs st.cpos st.clast
      ({ node0 with direction := ["right", "left"].getD st.dir "right",
                    background_color := some c.1 },
       { st with dir := 1 - st.dir, background := some c.1,
                 cpos := c.2, clast := some c.1 })
    else (node0, st)
  let node1 := p1.1
  let st1 := p1.2
  let stack1 :=
    if (depth : Int) ≤ st1.level then
      st1.stack.filter (fun i => (st1.store.getD i dummyNode).level < depth)
    else st1.stack
  let top := (stack1.getLast?).getD 0
  let newIdx := st1.store.length
  { st1 with
    store := modifyAt st1.store top
        (fun n => { n with children := n.children ++ [newIdx] }) ++ [node1],
    stack := stack1 ++ [newIdx],
    level := (depth : Int),
    uctr := st1.uctr + 1 }

/-- One iteration of the `for line in fd` loop: strip, skip blank lines, try
the metadata regex (recording the pair and, for a case-insensitive `title`
key, retitling the root), then try the heading regex. -/
def processLine (fs : FairStream) (u : Nat → String) (st : ParseState)
    (rawLine : String) : ParseState :=
  let l := pyStripList rawLine.toList
  if l = [] then st
  else
    let st1 :=
      match matchMeta l with
      | some kv =>
        let key := String.mk kv.1
        let value := String.mk kv.2
        let meta1 := metaInsert st.meta key (MetaValue.str value)
        let store1 :=
          if key.toLower = "title" then
            modifyAt st.store 0 (fun n => { n with topic := value })
          else st.store
        { st with meta := meta1, store := store1 }
      | none => st
    match matchHeading l with
    | some hd => processHeading fs u st1 hd
    | none => st1

/-- The state before the loop: `meta = {'version': 0.2}`, the root node with a
freshly drawn background (the allocator starts at position 0 with no
`last_color`, as in a fresh seeded process), and the stack `[root]`. -/
def initState (fs : FairStream) (u : Nat → String) : ParseState :=
  let c := random_color fs 0 none
  { store := [{ topic := "root", level := 0, id := u 0, isroot := false,
                expended := true, direction := "right", children := [],
                background_color := some c.1,
                foreground_color := some foreground }],
    stack := [0],
    meta := [("version", MetaValue.num (0.2 : ℚ))],
    background := none, dir := 0, level := -1,
    cpos := c.2, clast := some c.1, uctr := 1 }

/-- The parsing core of `org2mind(file_)`: the single pass over the input
lines.  `fs` is the seeded pseudo-random stream, `u` the uuid4 entropy
stream. -/
def org2mind (fs : FairStream) (u : Nat → String) (lines : List String) :
    ParseState :=
  lines.foldl (processLine fs u) (initState fs u)

/-! ## Heading-only core semantics

Metadata lines touch only the `meta` dict and the root's `topic`; every other
component of the state evolves only at heading lines.  `CoreState` projects
away `meta`, topics and ids, and `stepH` is the heading branch on that
projection; `coreOf_org2mind` below proves the projection of a full parse is
the fold of `stepH` over the headings alone. -/

/-- The components of a `Node` that heading processing reads or that the tree
claims are about (everything except `topic`, `id`, `expended`). -/
structure CoreNode where
  level : Nat
  isroot : Bool
  direction : String
  children : List Nat
  background_color : Option String
  foreground_color : Option String
deriving DecidableEq

/-- Project a `Node` to its core components. -/
def coreNode (n : Node) : CoreNode :=
  { level := n.level, isroot := n.isroot, direction := n.direction,
    children := n.children, background_color := n.background_color,
    foreground_color := n.foreground_color }

/-- Core projection of `dummyNode`. -/
def dummyCore : CoreNode := coreNode dummyNode

/-- The state components that heading processing reads and writes. -/
structure CoreState where
  store : List CoreNode
  stack : List Nat
  background : Option String
  dir : Nat
  level : Int
  cpos : Nat
  clast : Option String
deriving DecidableEq

/-- Project a `ParseState` to its core components. -/
def coreOf (st : ParseState) : CoreState :=
  { store := st.store.map coreNode, stack := st.stack,
    background := st.background, dir := st.dir, level := st.level,
    cpos := st.cpos, clast := st.clast }

/-- The heading branch of the loop body, on the core projection. -/
def stepH (fs : FairStream) (st : CoreState) (hd : Nat × List Char) :
    CoreState :=
  let depth := hd.1
  let node0 : CoreNode :=
    { level := depth, isroot := false, direction := "right", children := [],
      background_color := st.background, foreground_color := some foreground }
  let p1 :=
    if depth = 1 then
      let c := random_color fs st.cpos st.clast
      ({ node0 with direction := ["right", "left"].getD st.dir "right",
                    background_color := some c.1 },
       { st with dir := 1 - st.dir, background := some c.1,
                 cpos := c.2, clast := some c.1 })
    else (node0, st)
  let node1 := p1.1
  let st1 := p1.2
  let stack1 :=
    if (depth : Int) ≤ st1.level then
      st1.stack.filter (fun i => (st1.store.getD i dummyCore).level < depth)
    else st1.stack
  let top := (stack1.getLast?).getD 0
  let newIdx := st1.store.length
  { st1 with
    store := modifyAt st1.store top
        (fun n => { n with children := n.children ++ [newIdx] }) ++ [node1],
    stack := stack1 ++ [newIdx],
    level := (depth : Int) }

/-- The headings (depth, text) extracted from the input lines, in order. -/
def headsOf (lines : List String) : List (Nat × List Char) :=
  lines.filterMap (fun l => matchHeading (pyStripList l.toList))

/-- Core projection of the initial state. -/
def coreInit (fs : FairStream) : CoreState :=
  let c := random_color fs 0 none
  { store := [{ level := 0, isroot := false, direction := "right",
                children := [], background_color := some c.1,
                foreground_color := some foreground }],
    stack := [0], background := none, dir := 0, level := -1,
    cpos := c.2, clast := some c.1 }

/-- Fold of the heading step over a heading list. -/
def coreFold (fs : FairStream) (hs : List (Nat × List Char)) : CoreState :=
  hs.foldl (stepH fs) (coreInit fs)

/-- A concrete fair stream (indices cycle through the palette) used for
concrete evaluations: consecutive palette entries are distinct, so bound 1
suffices. -/
def exStream : FairStream where
  s := fun n => ⟨n % 6, Nat.mod_lt _ (by omega)⟩
  bound := 1
  fair := by
    intro n c
    by_cases h : colorOf ⟨n % 6, Nat.mod_lt _ (by omega)⟩ = c
    · refine ⟨1, le_refl _, ?_⟩
      rw [← h]
      have hne : (⟨(n + 1) % 6, Nat.mod_lt _ (by omega)⟩ : Fin 6) ≠
          ⟨n % 6, Nat.mod_lt _ (by omega)⟩ := by
        intro hc
        have := congrArg Fin.val hc
        simp only [] at this
        omega
      revert hne
      have : ∀ a b : Fin 6, a ≠ b → colorOf a ≠ colorOf b := by decide
      exact this _ _
    · exact ⟨0, Nat.zero_le _, by simpa using h⟩

/-- A concrete uuid stream. -/
def uuidA : Nat → String := fun _ => "a"

/-- Another concrete uuid stream, differing from `uuidA`. -/
def uuidB : Nat → String := fun _ => "b"

/-! ## Basic lemmas on `modifyAt` and store lookups -/

theorem modifyAt_length {α : Type} (f : α → α) :
    ∀ (l : List α) (i : Nat), (modifyAt l i f).length = l.length := by
  intro l
  induction l with
  | nil => intro i; rfl
  | cons x xs ih => intro i; cases i <;> simp [modifyAt, ih]

theorem modifyAt_map {α β : Type} (g : α → β) (f : α → α) (fb : β → β)
    (h : ∀ x, g (f x) = fb (g x)) :
    ∀ (l : List α) (i : Nat), (modifyAt l i f).map g = modifyAt (l.map g) i fb := by
  intro l
  induction l with
  | nil => intro i; rfl
  | cons x xs ih => intro i; cases i <;> simp [modifyAt, ih, h]

theorem modifyAt_map_invariant {α β : Type} (g : α → β) (f : α → α)
    (h : ∀ x, g (f x) = g x) :
    ∀ (l : List α) (i : Nat), (modifyAt l i f).map g = l.map g := by
  intro l
  induction l with
  | nil => intro i; rfl
  | cons x xs ih => intro i; cases i <;> simp [modifyAt, ih, h]

theorem getD_modifyAt_self {α : Type} (f : α → α) (d : α) :
    ∀ (l : List α) (i : Nat), i < l.length →
      (modifyAt l i f).getD i d = f (l.getD i d) := by
  intro l
  induction l with
  | nil => intro i h; simp at h
  | cons x xs ih =>
    intro i h
    cases i with
    | zero => simp [modifyAt]
    | succ n => simpa [modifyAt] using ih n (by simpa using h)

theorem getD_modifyAt_of_ne {α : Type} (f : α → α) (d : α) :
    ∀ (l : List α) (i j : Nat), i ≠ j →
      (modifyAt l i f).getD j d = l.getD j d := by
  intro l
  induction l with
  | nil => intro i j _; rfl
  | cons x xs ih =>
    intro i j hij
    cases i with
    | zero =>
      cases j with
      | zero => exact absurd rfl hij
      | succ m => simp [modifyAt]
    | succ n =>
      cases j with
      | zero => simp [modifyAt]
      | succ m => simpa [modifyAt] using ih n m (by omega)

/-! ## Transfer: full parse vs heading-only core semantics -/

theorem coreNode_dummy : coreNode dummyNode = dummyCore := rfl

theorem core_getD (store : List Node) (i : Nat) :
    (store.map coreNode).getD i dummyCore = coreNode (store.getD i dummyNode) :=
  List.getD_map store dummyNode coreNode

/-- A line matched by the metadata regex starts with `#`, a heading line with
`*`: the two patterns are mutually exclusive. -/
theorem matchHeading_of_matchMeta {l : List Char} {kv : List Char × List Char}
    (h : matchMeta l = some kv) : matchHeading l = none := by
  match l with
  | [] => simp [matchMeta] at h
  | [c] => simp [matchMeta] at h
  | c1 :: c2 :: rest =>
    rw [matchMeta] at h
    by_cases hc : c1 = '#' ∧ c2 = '+'
    · obtain ⟨h1, _⟩ := hc
      subst h1
      simp [matchHeading, List.takeWhile]
    · rw [if_neg hc] at h
      exact absurd h (by simp)

theorem core_level_getD (store : List Node) (i : Nat) :
    ((Option.map coreNode store[i]?).getD dummyCore).level
      = (store[i]?.getD dummyNode).level := by
  cases h : store[i]? <;> simp [dummyCore, coreNode, dummyNode]

/-- Heading processing commutes with the core projection. -/
theorem coreOf_processHeading (fs : FairStream) (u : Nat → String)
    (st : ParseState) (hd : Nat × List Char) :
    coreOf (processHeading fs u st hd) = stepH fs (coreOf st) hd := by
  have hmod : ∀ (store : List Node) (t j : Nat),
      (modifyAt store t (fun n => { n with children := n.children ++ [j] })).map
          coreNode
        = modifyAt (store.map coreNode) t
            (fun n => { n with children := n.children ++ [j] }) := by
    intro store t j
    exact modifyAt_map coreNode _ _ (fun x => rfl) store t
  by_cases h1 : hd.1 = 1
  · simp [processHeading, stepH, coreOf, h1, List.map_append, List.length_map,
      hmod, core_level_getD, coreNode]
  · simp [processHeading, stepH, coreOf, h1, List.map_append, List.length_map,
      hmod, core_level_getD, coreNode]

/-- Line processing on the core projection: heading lines step, all other
lines are invisible. -/
theorem coreOf_processLine (fs : FairStream) (u : Nat → String)
    (st : ParseState) (l : String) :
    coreOf (processLine fs u st l)
      = match matchHeading (pyStripList l.toList) with
        | some hd => stepH fs (coreOf st) hd
        | none => coreOf st := by
  rw [processLine]
  by_cases hblank : pyStripList l.toList = []
  · rw [if_pos hblank, hblank]
    rfl
  · rw [if_neg hblank]
    rcases hm : matchMeta (pyStripList l.toList) with _ | kv
    · simp only
      rcases hh : matchHeading (pyStripList l.toList) with _ | hd
      · simp
      · simp [coreOf_processHeading]
    · simp only
      rw [matchHeading_of_matchMeta hm]
      simp only [coreOf]
      by_cases ht : (String.mk kv.1).toLower = "title"
      · have hmap := modifyAt_map_invariant coreNode
          (fun n => { n with topic := String.mk kv.2 }) (fun x => rfl) st.store 0
        simp only [ht, ite_true, hmap]
      · simp [ht]

/-! ## Specification-side descriptions of the tree shape

These are the claim-level descriptions (nearest preceding shallower heading,
alternation counters, branch colors), written independently of the parsing
stack. -/

/-- Index of the last entry of `ds` that is strictly smaller than `D`
(the nearest preceding heading of smaller depth). -/
def lastLtIdx : List Nat → Nat → Option Nat
  | [], _ => none
  | d :: ds, D =>
    match lastLtIdx ds D with
    | some j => some (j + 1)
    | none => if d < D then some 0 else none

/-- Store index of the parent of a new heading of depth `d` after the heading
depths `ds`: one past the nearest preceding strictly-shallower heading, or the
root (index 0) when there is none. -/
def parentIdx (ds : List Nat) (d : Nat) : Nat :=
  match lastLtIdx ds d with
  | some j => j + 1
  | none => 0

/-- The children (store indices, in document order) that the node at store
index `p` ends up with, per the nearest-shallower-parent rule. -/
def childrenSpec (ds : List Nat) (p : Nat) : List Nat :=
  (List.range ds.length).filterMap fun k =>
    if parentIdx (ds.take k) (ds.getD k 0) = p then some (k + 1) else none

/-- Index of the last depth-1 entry of `ds`. -/
def lastEq1 : List Nat → Option Nat
  | [] => none
  | d :: ds =>
    match lastEq1 ds with
    | some j => some (j + 1)
    | none => if d = 1 then some 0 else none

/-- Number of depth-1 entries. -/
def count1 (ds : List Nat) : Nat := ds.count 1

/-- `m` survives on the ancestor stack after depths `ds`: every later heading
is strictly deeper. -/
def aliveAt (ds : List Nat) (m : Nat) : Bool :=
  (List.range ds.length).all fun j =>
    !(m < j) || decide (ds.getD m 0 < ds.getD j 0)

/-- The surviving heading indices, in increasing order. -/
def survIdx (ds : List Nat) : List Nat :=
  (List.range ds.length).filter (aliveAt ds)

/-- The `level` local of the loop: depth of the last heading, `-1` before any
heading. -/
def lastLevel (ds : List Nat) : Int :=
  (ds.getLast?).elim (-1) (fun d => (d : Int))

/-- The root's background color: the first allocator draw. -/
def rootColor (fs : FairStream) : String := (random_color fs 0 none).1

theorem take_append_le {α : Type} (l₂ : List α) :
    ∀ (l₁ : List α) (n : Nat), n ≤ l₁.length → (l₁ ++ l₂).take n = l₁.take n := by
  intro l₁
  induction l₁ with
  | nil =>
    intro n h
    have : n = 0 := Nat.le_zero.mp h
    subst this
    simp
  | cons x xs ih =>
    intro n h
    cases n with
    | zero => rfl
    | succ m => simpa using ih m (by simpa using h)

theorem lastLtIdx_append (d D : Nat) :
    ∀ ds : List Nat, lastLtIdx (ds ++ [d]) D
      = if d < D then some ds.length else lastLtIdx ds D := by
  intro ds
  induction ds with
  | nil => by_cases h : d < D <;> simp [lastLtIdx, h]
  | cons a ds ih =>
    by_cases h : d < D
    · rw [if_pos h] at ih ⊢
      simp [lastLtIdx, ih]
    · rw [if_neg h] at ih ⊢
      rw [List.cons_append, lastLtIdx, ih, lastLtIdx]

theorem lastEq1_append (d : Nat) :
    ∀ ds : List Nat, lastEq1 (ds ++ [d])
      = if d = 1 then some ds.length else lastEq1 ds := by
  intro ds
  induction ds with
  | nil => by_cases h : d = 1 <;> simp [lastEq1, h]
  | cons a ds ih =>
    by_cases h : d = 1
    · rw [if_pos h] at ih ⊢
      simp [lastEq1, ih]
    · rw [if_neg h] at ih ⊢
      rw [List.cons_append, lastEq1, ih, lastEq1]

theorem lastLtIdx_lt {D : Nat} :
    ∀ {ds : List Nat} {j : Nat}, lastLtIdx ds D = some j → j < ds.length := by
  intro ds
  induction ds with
  | nil => intro j h; simp [lastLtIdx] at h
  | cons a ds ih =>
    intro j h
    rw [lastLtIdx] at h
    rcases hds : lastLtIdx ds D with _ | j'
    · rw [hds] at h
      by_cases ha : a < D
      · rw [if_pos ha] at h
        injection h with h
        simp only [List.length_cons]
        omega
      · rw [if_neg ha] at h
        exact absurd h (by simp)
    · rw [hds] at h
      injection h with h
      have := ih hds
      simp only [List.length_cons]
      omega

theorem lastEq1_lt :
    ∀ {ds : List Nat} {j : Nat}, lastEq1 ds = some j → j < ds.length := by
  intro ds
  induction ds with
  | nil => intro j h; simp [lastEq1] at h
  | cons a ds ih =>
    intro j h
    rw [lastEq1] at h
    rcases hds : lastEq1 ds with _ | j'
    · rw [hds] at h
      by_cases ha : a = 1
      · rw [if_pos ha] at h
        injection h with h
        simp only [List.length_cons]
        omega
      · rw [if_neg ha] at h
        exact absurd h (by simp)
    · rw [hds] at h
      injection h with h
      have := ih hds
      simp only [List.length_cons]
      omega

theorem lastEq1_val :
    ∀ {ds : List Nat} {j : Nat}, lastEq1 ds = some j → ds.getD j 0 = 1 := by
  intro ds
  induction ds with
  | nil => intro j h; simp [lastEq1] at h
  | cons a ds ih =>
    intro j h
    rw [lastEq1] at h
    rcases hds : lastEq1 ds with _ | j'
    · rw [hds] at h
      by_cases ha : a = 1
      · rw [if_pos ha] at h
        injection h with h
        subst h
        simpa using ha
      · rw [if_neg ha] at h
        exact absurd h (by simp)
    · rw [hds] at h
      injection h with h
      subst h
      simpa using ih hds

theorem lastEq1_none_iff :
    ∀ ds : List Nat, lastEq1 ds = none ↔ ∀ m, m < ds.length → ds.getD m 0 ≠ 1 := by
  intro ds
  induction ds with
  | nil => simp [lastEq1]
  | cons a ds ih =>
    rw [lastEq1]
    rcases hds : lastEq1 ds with _ | j
    · rw [ih] at hds
      constructor
      · intro h m hm
        by_cases ha : a = 1
        · rw [if_pos ha] at h
          exact absurd h (by simp)
        · cases m with
          | zero => simpa using ha
          | succ m' => exact hds m' (by simpa using hm)
      · intro h
        have ha : ¬a = 1 := by simpa using h 0 (by simp)
        rw [if_neg ha]
    · constructor
      · intro h; exact absurd h (by simp)
      · intro h
        have hj := lastEq1_lt hds
        have h1 : (a :: ds).getD (j + 1) 0 = 1 := by simpa using lastEq1_val hds
        exact absurd h1 (h (j + 1) (by simpa using Nat.succ_lt_succ hj))

theorem all_congr_mem {α : Type} {l : List α} {f g : α → Bool}
    (h : ∀ a ∈ l, f a = g a) : l.all f = l.all g := by
  induction l with
  | nil => rfl
  | cons x xs ih =>
    simp only [List.all_cons]
    rw [h x (by simp), ih (fun a ha => h a (by simp [ha]))]

theorem mem_survIdx_lt {ds : List Nat} {m : Nat} (h : m ∈ survIdx ds) :
    m < ds.length := by
  rw [survIdx, List.mem_filter, List.mem_range] at h
  exact h.1

theorem aliveAt_append_lt (ds : List Nat) (d m : Nat) (hm : m < ds.length) :
    aliveAt (ds ++ [d]) m = (aliveAt ds m && decide (ds.getD m 0 < d)) := by
  rw [aliveAt, aliveAt]
  have hlen : (ds ++ [d]).length = ds.length + 1 := by simp
  rw [hlen, List.range_succ, List.all_append]
  have h1 : (List.range ds.length).all (fun j =>
        !(m < j) || decide ((ds ++ [d]).getD m 0 < (ds ++ [d]).getD j 0))
      = (List.range ds.length).all (fun j =>
        !(m < j) || decide (ds.getD m 0 < ds.getD j 0)) := by
    apply all_congr_mem
    intro j hj
    rw [List.mem_range] at hj
    rw [List.getD_append _ _ _ _ hm, List.getD_append _ _ _ _ hj]
  have h2 : ([ds.length].all (fun j =>
        !(m < j) || decide ((ds ++ [d]).getD m 0 < (ds ++ [d]).getD j 0)))
      = decide (ds.getD m 0 < d) := by
    simp only [List.all_cons, List.all_nil, Bool.and_true]
    rw [List.getD_append _ _ _ _ hm,
      List.getD_append_right _ _ _ _ (le_refl _)]
    simp [hm]
  rw [h1, h2]

theorem aliveAt_append_self (ds : List Nat) (d : Nat) :
    aliveAt (ds ++ [d]) ds.length = true := by
  rw [aliveAt]
  simp only [List.all_eq_true]
  intro j hj
  rw [List.mem_range] at hj
  have : ¬(ds.length < j) := by
    have hlen : (ds ++ [d]).length = ds.length + 1 := by simp
    omega
  simp [this]

theorem survIdx_append (ds : List Nat) (d : Nat) :
    survIdx (ds ++ [d])
      = (survIdx ds).filter (fun m => decide (ds.getD m 0 < d))
        ++ [ds.length] := by
  rw [survIdx, survIdx]
  have hlen : (ds ++ [d]).length = ds.length + 1 := by simp
  rw [hlen, List.range_succ, List.filter_append]
  congr 1
  · rw [List.filter_filter]
    apply List.filter_congr
    intro m hm
    rw [List.mem_range] at hm
    rw [aliveAt_append_lt ds d m hm]
    rw [Bool.and_comm]
  · rw [List.filter_cons]
    rw [if_pos (by simp [aliveAt_append_self])]
    rfl

/-- The last heading index of depth `< D` is exactly the last stack survivor
of depth `< D`. -/
theorem lastLt_filter_surv (D : Nat) (ds : List Nat) :
    ((survIdx ds).filter (fun m => decide (ds.getD m 0 < D))).getLast?
      = lastLtIdx ds D := by
  induction ds using List.reverseRecOn with
  | nil => rfl
  | append_singleton ds d ih =>
    rw [survIdx_append, lastLtIdx_append, List.filter_append]
    have hsub : ∀ m ∈ (survIdx ds).filter (fun m => decide (ds.getD m 0 < d)),
        ((ds ++ [d]).getD m 0 < D) = (ds.getD m 0 < D) := by
      intro m hm
      rw [List.mem_filter] at hm
      rw [List.getD_append _ _ _ _ (mem_survIdx_lt hm.1)]
    have h1 : ((survIdx ds).filter (fun m => decide (ds.getD m 0 < d))).filter
          (fun m => decide ((ds ++ [d]).getD m 0 < D))
        = ((survIdx ds).filter (fun m => decide (ds.getD m 0 < d))).filter
          (fun m => decide (ds.getD m 0 < D)) := by
      apply List.filter_congr
      intro m hm
      simp only [decide_eq_decide]
      rw [List.mem_filter] at hm
      rw [List.getD_append _ _ _ _ (mem_survIdx_lt hm.1)]
    rw [h1]
    have h2 : [ds.length].filter (fun m => decide ((ds ++ [d]).getD m 0 < D))
        = if d < D then [ds.length] else [] := by
      rw [List.filter_cons]
      have : (ds ++ [d]).getD ds.length 0 = d := by
        rw [List.getD_append_right _ _ _ _ (le_refl _)]
        simp
      rw [this]
      by_cases hdD : d < D
      · rw [if_pos (by simpa using hdD), if_pos hdD]
        rfl
      · rw [if_neg (by simpa using hdD), if_neg hdD]
        rfl
    rw [h2]
    by_cases hdD : d < D
    · rw [if_pos hdD, if_pos hdD, List.getLast?_concat]
    · rw [if_neg hdD, if_neg hdD, List.append_nil]
      rw [List.filter_filter]
      rw [← ih]
      apply congrArg
      apply List.filter_congr
      intro m _
      by_cases hx : ds.getD m 0 < D
      · rw [decide_eq_true hx, decide_eq_true (show ds.getD m 0 < d by omega),
          Bool.true_and]
      · rw [decide_eq_false hx, Bool.false_and]

/-- The post-pop stack top is the spec-level parent index. -/
theorem top_eq_parent (ds : List Nat) (d : Nat) :
    (((0 : Nat) :: ((survIdx ds).filter
          (fun m => decide (ds.getD m 0 < d))).map (fun m => m + 1)).getLast?).getD 0
      = parentIdx ds d := by
  rcases hL : (survIdx ds).filter (fun m => decide (ds.getD m 0 < d)) with _ | ⟨x, xs⟩
  · have hnone : lastLtIdx ds d = none := by
      rw [← lastLt_filter_surv d ds, hL]
      rfl
    simp [parentIdx, hnone]
  · have hfs : (x :: xs).getLast? = lastLtIdx ds d := by
      rw [← lastLt_filter_surv d ds, hL]
    simp only [parentIdx, ← hfs]
    have hc : ((0 : Nat) :: (x :: xs).map (fun m => m + 1)).getLast?
        = ((x :: xs).getLast?).map (fun m => m + 1) := by
      rw [show ((0 : Nat) :: (x :: xs).map (fun m => m + 1))
            = (0 : Nat) :: (x + 1) :: xs.map (fun m => m + 1) from rfl,
        List.getLast?_cons_cons,
        show (x + 1) :: xs.map (fun m => m + 1)
            = (x :: xs).map (fun m => m + 1) from rfl,
        List.getLast?_map]
    rw [hc]
    cases hlast : (x :: xs).getLast? with
    | none => exact absurd hlast (by simp)
    | some y => rfl

theorem parentIdx_le (ds : List Nat) (d : Nat) : parentIdx ds d ≤ ds.length := by
  rw [parentIdx]
  rcases h : lastLtIdx ds d with _ | j
  · exact Nat.zero_le _
  · exact lastLtIdx_lt h

theorem childrenSpec_big {ds : List Nat} {p : Nat} (h : ds.length < p) :
    childrenSpec ds p = [] := by
  rw [childrenSpec, List.filterMap_eq_nil_iff]
  intro k hk
  rw [List.mem_range] at hk
  have hle : parentIdx (ds.take k) (ds.getD k 0) ≤ (ds.take k).length :=
    parentIdx_le _ _
  have hlen : (ds.take k).length ≤ k := by
    rw [List.length_take]
    exact Nat.min_le_left _ _
  rw [if_neg (by omega)]

theorem childrenSpec_append (ds : List Nat) (d : Nat) (p : Nat) :
    childrenSpec (ds ++ [d]) p
      = childrenSpec ds p
        ++ (if parentIdx ds d = p then [ds.length + 1] else []) := by
  rw [childrenSpec, childrenSpec]
  have hlen : (ds ++ [d]).length = ds.length + 1 := by simp
  rw [hlen, List.range_succ, List.filterMap_append]
  congr 1
  · apply List.filterMap_congr
    intro k hk
    rw [List.mem_range] at hk
    rw [take_append_le _ _ _ (Nat.le_of_lt hk)]
    rw [List.getD_append _ _ _ _ hk]
  · rw [List.filterMap_cons]
    have h1 : (ds ++ [d]).take ds.length = ds := by
      rw [take_append_le _ _ _ (le_refl _), List.take_length]
    have h2 : (ds ++ [d]).getD ds.length 0 = d := by
      rw [List.getD_append_right _ _ _ _ (le_refl _)]
      simp
    rw [h1, h2]
    by_cases hpp : parentIdx ds d = p
    · simp [hpp]
    · simp [hpp]

/-! ## Allocator lemmas -/

theorem colorOf_mem (j : Fin 6) : colorOf j ∈ colors := by
  have : ∀ j : Fin 6, colorOf j ∈ colors := by decide
  exact this j

theorem searchFrom_spec (s : Nat → Fin 6) (c : String) :
    ∀ (fuel pos i : Nat), searchFrom s c pos fuel = some i →
      pos ≤ i ∧ i < pos + fuel ∧ colorOf (s i) ≠ c := by
  intro fuel
  induction fuel with
  | zero => intro pos i h; simp [searchFrom] at h
  | succ n ih =>
    intro pos i h
    rw [searchFrom] at h
    by_cases hc : colorOf (s pos) = c
    · rw [if_pos hc] at h
      obtain ⟨h1, h2, h3⟩ := ih (pos + 1) i h
      exact ⟨by omega, by omega, h3⟩
    · rw [if_neg hc] at h
      injection h with h
      subst h
      exact ⟨le_refl _, by omega, hc⟩

theorem searchFrom_isSome (s : Nat → Fin 6) (c : String) :
    ∀ (fuel pos : Nat), (∃ j, j < fuel ∧ colorOf (s (pos + j)) ≠ c) →
      ∃ i, searchFrom s c pos fuel = some i := by
  intro fuel
  induction fuel with
  | zero => intro pos h; obtain ⟨j, hj, _⟩ := h; omega
  | succ n ih =>
    intro pos h
    obtain ⟨j, hj, hne⟩ := h
    rw [searchFrom]
    by_cases hc : colorOf (s pos) = c
    · rw [if_pos hc]
      apply ih (pos + 1)
      cases j with
      | zero => exact absurd (by simpa using hc) hne
      | succ j' =>
        exact ⟨j', by omega, by
          have : pos + 1 + j' = pos + (j' + 1) := by omega
          rw [this]
          exact hne⟩
    · rw [if_neg hc]
      exact ⟨pos, rfl⟩

/-- The retry loop of `random_color` always finds an acceptable color within
the fairness bound: the loop terminates on every call. -/
theorem searchFrom_terminates (fs : FairStream) (c : String) (pos : Nat) :
    ∃ i, searchFrom fs.s c pos (fs.bound + 1) = some i
      ∧ pos ≤ i ∧ i ≤ pos + fs.bound ∧ colorOf (fs.s i) ≠ c := by
  obtain ⟨j, hj, hne⟩ := fs.fair pos c
  obtain ⟨i, hi⟩ := searchFrom_isSome fs.s c (fs.bound + 1) pos ⟨j, by omega, hne⟩
  obtain ⟨h1, h2, h3⟩ := searchFrom_spec fs.s c (fs.bound + 1) pos i hi
  exact ⟨i, hi, h1, by omega, h3⟩

theorem random_color_none (fs : FairStream) (pos : Nat) :
    random_color fs pos none = (colorOf (fs.s pos), pos + 1) := rfl

theorem random_color_some (fs : FairStream) (pos : Nat) (c : String) :
    random_color fs pos (some c)
      = match searchFrom fs.s c pos (fs.bound + 1) with
        | some i => (colorOf (fs.s i), i + 1)
        | none => (colorOf (fs.s pos), pos + 1) := rfl

theorem random_color_mem (fs : FairStream) (pos : Nat) (last : Option String) :
    (random_color fs pos last).1 ∈ colors := by
  cases last with
  | none => rw [random_color_none]; exact colorOf_mem _
  | some c =>
    rw [random_color_some]
    cases h : searchFrom fs.s c pos (fs.bound + 1) with
    | none => simp only [h]; exact colorOf_mem _
    | some i => simp only [h]; exact colorOf_mem _

/-- A draw with a remembered previous color never repeats it. -/
theorem random_color_ne (fs : FairStream) (pos : Nat) (c : String) :
    (random_color fs pos (some c)).1 ≠ c := by
  rw [random_color_some]
  obtain ⟨i, hi, _, _, hne⟩ := searchFrom_terminates fs c pos
  simp only [hi]
  exact hne

/-! ## Fold transfer for the whole parse -/

theorem headsOf_pos (lines : List String) :
    ∀ hd ∈ headsOf lines, 1 ≤ hd.1 := by
  intro hd hmem
  rw [headsOf, List.mem_filterMap] at hmem
  obtain ⟨l, _, hmatch⟩ := hmem
  rw [matchHeading] at hmatch
  by_cases hs : (pyStripList l.toList).takeWhile (fun c => c = '*') = []
  · rw [if_pos hs] at hmatch
    exact absurd hmatch (by simp)
  · rw [if_neg hs] at hmatch
    by_cases hw : ((pyStripList l.toList).dropWhile
        (fun c => c = '*')).takeWhile isPySpace = []
        ∨ ((pyStripList l.toList).dropWhile (fun c => c = '*')).dropWhile
          isPySpace = []
    · rw [if_pos hw] at hmatch
      exact absurd hmatch (by simp)
    · rw [if_neg hw] at hmatch
      injection hmatch with hmatch
      rw [← hmatch]
      have : ((pyStripList l.toList).takeWhile (fun c => c = '*')).length ≠ 0 := by
        simpa [List.length_eq_zero] using hs
      simpa using Nat.one_le_iff_ne_zero.mpr this

theorem coreOf_foldl (fs : FairStream) (u : Nat → String) :
    ∀ (lines : List String) (st : ParseState),
      coreOf (lines.foldl (processLine fs u) st)
        = (headsOf lines).foldl (stepH fs) (coreOf st) := by
  intro lines
  induction lines with
  | nil => intro st; rfl
  | cons l ls ih =>
    intro st
    have hpl := coreOf_processLine fs u st l
    rw [List.foldl_cons, ih]
    cases hh : matchHeading (pyStripList l.toList) with
    | none =>
      rw [hh] at hpl
      rw [hpl]
      have : headsOf (l :: ls) = headsOf ls := by
        rw [headsOf, List.filterMap_cons, hh, ← headsOf]
      rw [this]
    | some hd =>
      rw [hh] at hpl
      rw [hpl]
      have : headsOf (l :: ls) = hd :: headsOf ls := by
        rw [headsOf, List.filterMap_cons, hh, ← headsOf]
      rw [this, List.foldl_cons]

theorem coreOf_org2mind (fs : FairStream) (u : Nat → String)
    (lines : List String) :
    coreOf (org2mind fs u lines) = coreFold fs (headsOf lines) := by
  rw [org2mind, coreFold, coreOf_foldl]
  rfl

/-! ## The master invariant of the heading fold -/

theorem getD_modify_append {α β : Type} (store : List α) (t : Nat) (f : α → α)
    (node dflt : α) (φ : α → β) (hφ : ∀ x, φ (f x) = φ x) (p : Nat) :
    φ ((modifyAt store t f ++ [node]).getD p dflt)
      = if p = store.length then φ node else φ (store.getD p dflt) := by
  by_cases hp : p < store.length
  · rw [if_neg (by omega),
      List.getD_append _ _ _ _ (by rw [modifyAt_length]; exact hp)]
    by_cases hpt : t = p
    · subst hpt
      rw [getD_modifyAt_self f _ _ _ hp, hφ]
    · rw [getD_modifyAt_of_ne f dflt _ _ _ hpt]
  · by_cases hpe : p = store.length
    · subst hpe
      rw [if_pos rfl,
        List.getD_append_right _ _ _ _ (by rw [modifyAt_length])]
      rw [modifyAt_length, Nat.sub_self]
      rfl
    · rw [if_neg hpe]
      have h1 : (modifyAt store t f ++ [node]).length ≤ p := by
        simp only [List.length_append, modifyAt_length, List.length_cons,
          List.length_nil]
        omega
      have h2 : store.length ≤ p := by omega
      rw [List.getD_eq_default _ _ h1, List.getD_eq_default _ _ h2]

theorem getD_modify_append_children (store : List CoreNode) (t j : Nat)
    (node : CoreNode) (p : Nat) (ht : t < store.length) :
    ((modifyAt store t
          (fun nd => { nd with children := nd.children ++ [j] })
        ++ [node]).getD p dummyCore).children
      = if p = store.length then node.children
        else (store.getD p dummyCore).children ++ (if p = t then [j] else []) := by
  by_cases hp : p < store.length
  · rw [if_neg (by omega),
      List.getD_append _ _ _ _ (by rw [modifyAt_length]; exact hp)]
    by_cases hpt : t = p
    · subst hpt
      rw [getD_modifyAt_self _ _ _ _ hp, if_pos rfl]
    · rw [getD_modifyAt_of_ne _ dummyCore _ _ _ hpt,
        if_neg (fun hc => hpt hc.symm), List.append_nil]
  · by_cases hpe : p = store.length
    · subst hpe
      rw [if_pos rfl,
        List.getD_append_right _ _ _ _ (by rw [modifyAt_length])]
      rw [modifyAt_length, Nat.sub_self]
      rfl
    · rw [if_neg hpe, if_neg (by omega), List.append_nil]
      have h1 : (modifyAt store t
          (fun nd => { nd with children := nd.children ++ [j] })
          ++ [node]).length ≤ p := by
        simp only [List.length_append, modifyAt_length, List.length_cons,
          List.length_nil]
        omega
      have h2 : store.length ≤ p := by omega
      rw [List.getD_eq_default _ _ h1, List.getD_eq_default _ _ h2]

theorem getLast?_eq_getD {l : List Nat} (h : l ≠ []) :
    l.getLast? = some (l.getD (l.length - 1) 0) := by
  have hlen : l.length - 1 < l.length := by
    have : l.length ≠ 0 := by simpa [List.length_eq_zero] using h
    omega
  rw [List.getLast?_eq_getElem?, List.getElem?_eq_getElem hlen,
    List.getD_eq_getElem _ _ hlen]

theorem aliveAt_spec {ds : List Nat} {m : Nat} (h : aliveAt ds m = true)
    {j : Nat} (hj : j < ds.length) (hmj : m < j) :
    ds.getD m 0 < ds.getD j 0 := by
  rw [aliveAt, List.all_eq_true] at h
  have := h j (by rw [List.mem_range]; exact hj)
  rcases Bool.or_eq_true_iff.mp this with h' | h'
  · exact absurd hmj (by simpa using h')
  · exact of_decide_eq_true h'

theorem surv_le_last {ds : List Nat} {m : Nat} (h : m ∈ survIdx ds) :
    ds.getD m 0 ≤ ds.getD (ds.length - 1) 0 := by
  have hm : m < ds.length := mem_survIdx_lt h
  rw [survIdx, List.mem_filter] at h
  by_cases hme : m = ds.length - 1
  · subst hme
    exact le_refl _
  · exact Nat.le_of_lt (aliveAt_spec h.2 (by omega) (by omega))

/-- `Inv fs ds st` : everything the claims need about the state reached after
processing heading depths `ds`. -/
structure Inv (fs : FairStream) (ds : List Nat) (st : CoreState) : Prop where
  hlen : st.store.length = ds.length + 1
  hroot_level : (st.store.getD 0 dummyCore).level = 0
  hroot_bg : (st.store.getD 0 dummyCore).background_color = some (rootColor fs)
  hisroot : ∀ i, (st.store.getD i dummyCore).isroot = false
  hfg : ∀ i, i < st.store.length →
      (st.store.getD i dummyCore).foreground_color = some foreground
  hlevel : ∀ k, k < ds.length →
      (st.store.getD (k + 1) dummyCore).level = ds.getD k 0
  hstack : st.stack = 0 :: (survIdx ds).map (fun m => m + 1)
  hlevelSt : st.level = lastLevel ds
  hchildren : ∀ p, (st.store.getD p dummyCore).children = childrenSpec ds p
  hdir : st.dir = count1 ds % 2
  hdirNode : ∀ k, k < ds.length →
      (st.store.getD (k + 1) dummyCore).direction
        = if ds.getD k 0 = 1
          then (if count1 (ds.take k) % 2 = 0 then "right" else "left")
          else "right"
  hbgnone : lastEq1 ds = none →
      st.background = none ∧ st.clast = some (rootColor fs)
  hbgsome : ∀ j, lastEq1 ds = some j →
      st.background = (st.store.getD (j + 1) dummyCore).background_color
        ∧ st.clast = st.background
  hbg1 : ∀ k, k < ds.length → ds.getD k 0 = 1 →
      ∃ c, (st.store.getD (k + 1) dummyCore).background_color = some c
        ∧ c ∈ colors
        ∧ some c ≠ (match lastEq1 (ds.take k) with
            | none => some (rootColor fs)
            | some j => (st.store.getD (j + 1) dummyCore).background_color)
  hbg0 : ∀ k, k < ds.length → ds.getD k 0 ≠ 1 →
      (st.store.getD (k + 1) dummyCore).background_color
        = (match lastEq1 (ds.take k) with
            | none => none
            | some j => (st.store.getD (j + 1) dummyCore).background_color)

theorem inv_init (fs : FairStream) : Inv fs [] (coreInit fs) := by
  refine ⟨rfl, rfl, rfl, ?_, ?_, ?_, rfl, rfl, ?_, rfl, ?_, ?_, ?_, ?_, ?_⟩
  · intro i
    cases i with
    | zero => rfl
    | succ n => rfl
  · intro i hi
    have : i = 0 := by
      simpa [coreInit] using hi
    subst this
    rfl
  · intro k hk
    simp at hk
  · intro p
    cases p with
    | zero => rfl
    | succ n => rfl
  · intro k hk
    simp at hk
  · intro _
    exact ⟨rfl, rfl⟩
  · intro j hj
    simp [lastEq1] at hj
  · intro k hk
    simp at hk
  · intro k hk
    simp at hk


/-- The node created by a heading step, with the depth-1 special case folded
in. -/
def newNode (fs : FairStream) (st : CoreState) (d : Nat) : CoreNode :=
  { level := d, isroot := false,
    direction := if d = 1 then ["right", "left"].getD st.dir "right"
      else "right",
    children := [],
    background_color := if d = 1 then some (random_color fs st.cpos st.clast).1
      else st.background,
    foreground_color := some foreground }

/-- The stack after the conditional pop. -/
def stackAfter (st : CoreState) (d : Nat) : List Nat :=
  if (d : Int) ≤ st.level then
    st.stack.filter (fun i => (st.store.getD i dummyCore).level < d)
  else st.stack

/-- Explicit form of one heading step. -/
theorem stepH_eq (fs : FairStream) (st : CoreState) (d : Nat) (t : List Char) :
    stepH fs st (d, t)
      = { store := modifyAt st.store ((stackAfter st d).getLast?.getD 0)
              (fun nd => { nd with children := nd.children ++ [st.store.length] })
            ++ [newNode fs st d],
          stack := stackAfter st d ++ [st.store.length],
          background := if d = 1 then some (random_color fs st.cpos st.clast).1
            else st.background,
          dir := if d = 1 then 1 - st.dir else st.dir,
          level := (d : Int),
          cpos := if d = 1 then (random_color fs st.cpos st.clast).2
            else st.cpos,
          clast := if d = 1 then some (random_color fs st.cpos st.clast).1
            else st.clast } := by
  by_cases h : d = 1 <;> simp [stepH, stackAfter, newNode, h]

theorem lastLevel_append (ds : List Nat) (d : Nat) :
    lastLevel (ds ++ [d]) = (d : Int) := by
  simp only [lastLevel]
  rw [List.getLast?_concat]
  rfl

theorem count1_append (ds : List Nat) (d : Nat) :
    count1 (ds ++ [d]) = count1 ds + (if d = 1 then 1 else 0) := by
  simp only [count1, List.count_append]
  congr 1
  by_cases h : d = 1 <;> simp [List.count_cons, h]

/-- After the conditional pop the stack is the root plus the survivors of
depth `< d`: the pop condition is immaterial, since when it is false no stack
entry has depth `≥ d` anyway. -/
theorem stackAfter_eq (fs : FairStream) {ds : List Nat} {st : CoreState}
    (d : Nat) (hd1 : 1 ≤ d) (hinv : Inv fs ds st) :
    stackAfter st d
      = 0 :: ((survIdx ds).filter
          (fun m => decide (ds.getD m 0 < d))).map (fun m => m + 1) := by
  rw [stackAfter, hinv.hstack]
  by_cases hc : (d : Int) ≤ st.level
  · rw [if_pos hc, List.filter_cons]
    have hroot : (st.store.getD 0 dummyCore).level < d := by
      rw [hinv.hroot_level]
      omega
    rw [if_pos (by simpa using hroot)]
    congr 1
    rw [List.filter_map]
    apply congrArg
    apply List.filter_congr
    intro m hm
    have hmn : m < ds.length := mem_survIdx_lt hm
    simp only [Function.comp]
    rw [hinv.hlevel m hmn]
  · rw [if_neg hc]
    have hall : ∀ m ∈ survIdx ds, decide (ds.getD m 0 < d) = true := by
      intro m hm
      rcases eq_or_ne ds [] with hds | hds
      · subst hds
        simp [survIdx] at hm
      · have hlast : st.level = ((ds.getD (ds.length - 1) 0 : Nat) : Int) := by
          rw [hinv.hlevelSt]
          simp only [lastLevel]
          rw [getLast?_eq_getD hds]
          rfl
        have h1 : ds.getD (ds.length - 1) 0 < d := by
          rw [hlast] at hc
          omega
        have h2 := surv_le_last hm
        simp only [decide_eq_true_eq]
        omega
    rw [List.filter_eq_self.mpr hall]


/-- One heading step preserves the master invariant. -/
theorem inv_step (fs : FairStream) {ds : List Nat} {st : CoreState}
    (d : Nat) (t : List Char) (hd1 : 1 ≤ d) (hinv : Inv fs ds st) :
    Inv fs (ds ++ [d]) (stepH fs st (d, t)) := by
  have hstA := stackAfter_eq fs d hd1 hinv
  have htop : (stackAfter st d).getLast?.getD 0 = parentIdx ds d := by
    rw [hstA]
    exact top_eq_parent ds d
  have htlt : parentIdx ds d < st.store.length := by
    have h1 := parentIdx_le ds d
    have h2 := hinv.hlen
    omega
  rw [stepH_eq, htop, hstA]
  have hphi : ∀ {β : Type} (φ : CoreNode → β),
      (∀ x ch, φ { x with children := ch } = φ x) → ∀ p,
      φ ((modifyAt st.store (parentIdx ds d)
            (fun nd => { nd with children := nd.children ++ [st.store.length] })
          ++ [newNode fs st d]).getD p dummyCore)
        = if p = st.store.length then φ (newNode fs st d)
          else φ (st.store.getD p dummyCore) := by
    intro β φ hpres p
    exact getD_modify_append st.store (parentIdx ds d) _ (newNode fs st d)
      dummyCore φ (fun x => hpres x _) p
  have hch := fun p => getD_modify_append_children st.store (parentIdx ds d)
      st.store.length (newNode fs st d) p htlt
  have hgetDk : ∀ k, k < ds.length → (ds ++ [d]).getD k 0 = ds.getD k 0 :=
    fun k hk => List.getD_append _ _ _ _ hk
  have hgetDn : (ds ++ [d]).getD ds.length 0 = d := by
    rw [List.getD_append_right _ _ _ _ (le_refl _)]
    simp
  have htakek : ∀ k, k ≤ ds.length → (ds ++ [d]).take k = ds.take k :=
    fun k hk => take_append_le _ _ _ hk
  have htaken : (ds ++ [d]).take ds.length = ds := by
    rw [htakek _ (le_refl _), List.take_length]
  have hlen2 : (ds ++ [d]).length = ds.length + 1 := by simp
  refine ⟨?_, ?_, ?_, ?_, ?_, ?_, ?_, ?_, ?_, ?_, ?_, ?_, ?_, ?_, ?_⟩
  -- hlen
  · dsimp only
    simp [modifyAt_length, hinv.hlen]
  -- hroot_level
  · dsimp only
    rw [hphi (fun nd => nd.level) (fun x ch => rfl) 0,
      if_neg (by have := hinv.hlen; omega)]
    exact hinv.hroot_level
  -- hroot_bg
  · dsimp only
    rw [hphi (fun nd => nd.background_color) (fun x ch => rfl) 0,
      if_neg (by have := hinv.hlen; omega)]
    exact hinv.hroot_bg
  -- hisroot
  · intro i
    dsimp only
    rw [hphi (fun nd => nd.isroot) (fun x ch => rfl) i]
    by_cases hi : i = st.store.length
    · rw [if_pos hi]
      rfl
    · rw [if_neg hi]
      exact hinv.hisroot i
  -- hfg
  · intro i hi
    dsimp only at hi ⊢
    rw [hphi (fun nd => nd.foreground_color) (fun x ch => rfl) i]
    by_cases he : i = st.store.length
    · rw [if_pos he]
      rfl
    · rw [if_neg he]
      apply hinv.hfg
      have : i < st.store.length + 1 := by
        simpa [modifyAt_length] using hi
      omega
  -- hlevel
  · intro k hk
    dsimp only
    rw [hphi (fun nd => nd.level) (fun x ch => rfl) (k + 1)]
    rw [hlen2] at hk
    by_cases he : k = ds.length
    · subst he
      rw [if_pos (by rw [hinv.hlen]), hgetDn]
      rfl
    · rw [if_neg (by rw [hinv.hlen]; omega)]
      have hk' : k < ds.length := by omega
      rw [hinv.hlevel k hk', hgetDk k hk']
  -- hstack
  · dsimp only
    rw [survIdx_append, List.map_append, hinv.hlen]
    simp [List.cons_append]
  -- hlevelSt
  · dsimp only
    rw [lastLevel_append]
  -- hchildren
  · intro p
    dsimp only
    rw [hch p, childrenSpec_append]
    by_cases he : p = st.store.length
    · rw [if_pos he]
      have hp : ds.length < p := by rw [he, hinv.hlen]; omega
      rw [childrenSpec_big hp]
      have hne : parentIdx ds d ≠ p := by
        have := parentIdx_le ds d
        omega
      rw [if_neg hne]
      rfl
    · rw [if_neg he, hinv.hchildren p, hinv.hlen]
      congr 1
      by_cases hpp : parentIdx ds d = p
      · rw [if_pos hpp, if_pos hpp.symm]
      · rw [if_neg hpp, if_neg (fun hc => hpp hc.symm)]
  -- hdir
  · dsimp only
    rw [count1_append]
    by_cases h1 : d = 1
    · simp only [if_pos h1]
      rw [hinv.hdir]
      omega
    · simp only [if_neg h1]
      rw [hinv.hdir]
      omega
  -- hdirNode
  · intro k hk
    dsimp only
    rw [hphi (fun nd => nd.direction) (fun x ch => rfl) (k + 1)]
    rw [hlen2] at hk
    by_cases he : k = ds.length
    · subst he
      rw [if_pos (by rw [hinv.hlen]), hgetDn, htaken]
      simp only [newNode]
      by_cases h1 : d = 1
      · simp only [if_pos h1]
        rw [hinv.hdir]
        rcases Nat.mod_two_eq_zero_or_one (count1 ds) with hp | hp
        · rw [hp]
          rfl
        · rw [hp, if_neg one_ne_zero]
          rfl
      · simp only [if_neg h1]
    · rw [if_neg (by rw [hinv.hlen]; omega)]
      have hk' : k < ds.length := by omega
      rw [hinv.hdirNode k hk', hgetDk k hk', htakek k (by omega)]
  -- hbgnone
  · intro h
    rw [lastEq1_append] at h
    by_cases h1 : d = 1
    · rw [if_pos h1] at h
      exact absurd h (by simp)
    · rw [if_neg h1] at h
      obtain ⟨hb, hc⟩ := hinv.hbgnone h
      dsimp only
      simp only [if_neg h1]
      exact ⟨hb, hc⟩
  -- hbgsome
  · intro j hj
    rw [lastEq1_append] at hj
    dsimp only
    by_cases h1 : d = 1
    · rw [if_pos h1] at hj
      injection hj with hj
      subst hj
      simp only [if_pos h1]
      constructor
      · rw [hphi (fun nd => nd.background_color) (fun x ch => rfl)
          (ds.length + 1), if_pos (by rw [hinv.hlen])]
        simp [newNode, h1]
      · trivial
    · rw [if_neg h1] at hj
      obtain ⟨hb, hc⟩ := hinv.hbgsome j hj
      have hjlt := lastEq1_lt hj
      simp only [if_neg h1]
      constructor
      · rw [hphi (fun nd => nd.background_color) (fun x ch => rfl) (j + 1),
          if_neg (by rw [hinv.hlen]; omega)]
        exact hb
      · exact hc
  -- hbg1
  · intro k hk h1k
    rw [hlen2] at hk
    dsimp only at h1k ⊢
    by_cases he : k = ds.length
    · subst he
      rw [hgetDn] at h1k
      rw [htaken]
      refine ⟨(random_color fs st.cpos st.clast).1, ?_,
        random_color_mem fs st.cpos st.clast, ?_⟩
      · rw [hphi (fun nd => nd.background_color) (fun x ch => rfl)
          (ds.length + 1), if_pos (by rw [hinv.hlen])]
        simp [newNode, h1k]
      · cases hE : lastEq1 ds with
        | none =>
          obtain ⟨hb, hc⟩ := hinv.hbgnone hE
          simp only [hc]
          intro hcontra
          injection hcontra with hcontra
          exact random_color_ne fs st.cpos (rootColor fs) hcontra
        | some j =>
          have hjlt := lastEq1_lt hE
          have hj1 := lastEq1_val hE
          obtain ⟨v, hv, hvmem, hvne⟩ := hinv.hbg1 j hjlt hj1
          obtain ⟨hb, hc⟩ := hinv.hbgsome j hE
          dsimp only
          rw [hphi (fun nd => nd.background_color) (fun x ch => rfl) (j + 1),
            if_neg (by rw [hinv.hlen]; omega)]
          rw [hv]
          have hcl : st.clast = some v := by rw [hc, hb, hv]
          simp only [hcl]
          intro hcontra
          injection hcontra with hcontra
          exact random_color_ne fs st.cpos v hcontra
    · have hk' : k < ds.length := by omega
      rw [hgetDk k hk'] at h1k
      rw [htakek k (by omega)]
      obtain ⟨c, hcbg, hcmem, hcne⟩ := hinv.hbg1 k hk' h1k
      refine ⟨c, ?_, hcmem, ?_⟩
      · rw [hphi (fun nd => nd.background_color) (fun x ch => rfl) (k + 1),
          if_neg (by rw [hinv.hlen]; omega)]
        exact hcbg
      · cases hE : lastEq1 (ds.take k) with
        | none =>
          simp only [hE] at hcne ⊢
          exact hcne
        | some j =>
          have hjlt : j < k := by
            have hj2 := lastEq1_lt hE
            have hj3 : (ds.take k).length ≤ k := by
              rw [List.length_take]
              exact Nat.min_le_left _ _
            omega
          simp only [hE] at hcne ⊢
          rw [hphi (fun nd => nd.background_color) (fun x ch => rfl) (j + 1),
            if_neg (by rw [hinv.hlen]; omega)]
          exact hcne
  -- hbg0
  · intro k hk h0k
    rw [hlen2] at hk
    dsimp only at h0k ⊢
    by_cases he : k = ds.length
    · subst he
      rw [hgetDn] at h0k
      rw [htaken]
      rw [hphi (fun nd => nd.background_color) (fun x ch => rfl)
        (ds.length + 1), if_pos (by rw [hinv.hlen])]
      have hnode : (newNode fs st d).background_color = st.background := by
        simp [newNode, h0k]
      rw [hnode]
      cases hE : lastEq1 ds with
      | none =>
        obtain ⟨hb, _⟩ := hinv.hbgnone hE
        exact hb
      | some j =>
        have hjlt := lastEq1_lt hE
        obtain ⟨hb, _⟩ := hinv.hbgsome j hE
        dsimp only
        rw [hphi (fun nd => nd.background_color) (fun x ch => rfl) (j + 1),
          if_neg (by rw [hinv.hlen]; omega)]
        exact hb
    · have hk' : k < ds.length := by omega
      rw [hgetDk k hk'] at h0k
      rw [htakek k (by omega)]
      have hold := hinv.hbg0 k hk' h0k
      rw [hphi (fun nd => nd.background_color) (fun x ch => rfl) (k + 1),
        if_neg (by rw [hinv.hlen]; omega)]
      rw [hold]
      cases hE : lastEq1 (ds.take k) with
      | none =>
        simp only [hE]
      | some j =>
        have hjlt : j < k := by
          have hj2 := lastEq1_lt hE
          have hj3 : (ds.take k).length ≤ k := by
            rw [List.length_take]
            exact Nat.min_le_left _ _
          omega
        simp only [hE]
        rw [hphi (fun nd => nd.background_color) (fun x ch => rfl) (j + 1),
          if_neg (by rw [hinv.hlen]; omega)]


theorem getD_take {l : List Nat} {k m : Nat} (h : m < k) :
    (l.take k).getD m 0 = l.getD m 0 := by
  rw [List.getD_eq_getElem?_getD, List.getD_eq_getElem?_getD,
    List.getElem?_take_of_lt h]

/-- The master invariant holds after folding any heading list whose depths are
positive. -/
theorem inv_coreFold (fs : FairStream) (hs : List (Nat × List Char))
    (h : ∀ p ∈ hs, 1 ≤ p.1) :
    Inv fs (hs.map Prod.fst) (coreFold fs hs) := by
  induction hs using List.reverseRecOn with
  | nil => exact inv_init fs
  | append_singleton hs hd ih =>
    have h1 : ∀ p ∈ hs, 1 ≤ p.1 := fun p hp => h p (by simp [hp])
    have h2 : 1 ≤ hd.1 := h hd (by simp)
    have hstep := inv_step fs hd.1 hd.2 h2 (ih h1)
    rw [coreFold, List.foldl_append, List.foldl_cons, List.foldl_nil,
      List.map_append]
    simpa [coreFold] using hstep

/-- The master invariant, transported to the full parse. -/
theorem inv_org2mind (fs : FairStream) (u : Nat → String)
    (lines : List String) :
    Inv fs ((headsOf lines).map Prod.fst) (coreOf (org2mind fs u lines)) := by
  rw [coreOf_org2mind]
  exact inv_coreFold fs (headsOf lines) (headsOf_pos lines)


/-! ## Claim theorems: tree shape, direction, colors -/

theorem core_store_eq (fs : FairStream) (u : Nat → String)
    (lines : List String) :
    (coreOf (org2mind fs u lines)).store
      = (org2mind fs u lines).store.map coreNode := rfl

/-- C4: every heading node becomes the last child of the node of the nearest
preceding strictly-shallower heading (the root when none exists); children
lists are exactly the spec-level `childrenSpec`, in document order, and the
`k`-th heading node records its own depth.  Depth jumps and equal-depth
siblings are covered: `childrenSpec`/`parentIdx` is defined by "last preceding
index with strictly smaller depth". -/
theorem C4_children (fs : FairStream) (u : Nat → String) (lines : List String) :
    (∀ p, ((org2mind fs u lines).store.getD p dummyNode).children
        = childrenSpec ((headsOf lines).map Prod.fst) p)
    ∧ (∀ k, k < ((headsOf lines).map Prod.fst).length →
        ((org2mind fs u lines).store.getD (k + 1) dummyNode).level
          = ((headsOf lines).map Prod.fst).getD k 0) := by
  have hinv := inv_org2mind fs u lines
  constructor
  · intro p
    have h := hinv.hchildren p
    rw [core_store_eq, core_getD] at h
    exact h
  · intro k hk
    have h := hinv.hlevel k hk
    rw [core_store_eq, core_getD] at h
    exact h

theorem C4_children_witness :
    ((org2mind exStream uuidA ["* A", "** A1", "* B"]).store.getD 0
        dummyNode).children = [1, 3]
    ∧ ((org2mind exStream uuidA ["* A", "** A1", "* B"]).store.getD 1
        dummyNode).children = [2]
    ∧ ((org2mind exStream uuidA ["* A", "** A1", "* B"]).store.getD 2
        dummyNode).level = 2 := by
  have h := C4_children exStream uuidA ["* A", "** A1", "* B"]
  refine ⟨?_, ?_, ?_⟩
  · rw [h.1 0]
    decide
  · rw [h.1 1]
    decide
  · rw [h.2 1 (by decide)]
    decide

/-- C1 (amended): `isroot` is `false` on every node of the parse result,
including the root: the code never sets it to `True`. -/
theorem C1_isroot_false (fs : FairStream) (u : Nat → String)
    (lines : List String) (i : Nat) :
    ((org2mind fs u lines).store.getD i dummyNode).isroot = false := by
  have h := (inv_org2mind fs u lines).hisroot i
  rw [core_store_eq, core_getD] at h
  exact h

/-- C1 counterexample: the root node of a parse does *not* have
`isroot = true`; the `Node` dataclass default `False` is never overridden. -/
theorem C1_counterexample :
    ¬ (((org2mind exStream uuidA []).store.getD 0 dummyNode).isroot = true) := by
  decide

/-- C6: the `k`-th heading of depth 1 (in document order) gets direction
"right" when an even number of depth-1 headings precede it, "left" when odd —
i.e. the depth-1 directions strictly alternate starting at "right",
regardless of the depths in between. -/
theorem C6_direction (fs : FairStream) (u : Nat → String) (lines : List String)
    (k : Nat) (hk : k < ((headsOf lines).map Prod.fst).length)
    (h1 : ((headsOf lines).map Prod.fst).getD k 0 = 1) :
    ((org2mind fs u lines).store.getD (k + 1) dummyNode).direction
      = if count1 (((headsOf lines).map Prod.fst).take k) % 2 = 0
        then "right" else "left" := by
  have h := (inv_org2mind fs u lines).hdirNode k hk
  rw [core_store_eq, core_getD] at h
  rw [if_pos h1] at h
  exact h

theorem C6_direction_witness :
    ((org2mind exStream uuidA ["* A", "** A1", "* B"]).store.getD 1
        dummyNode).direction = "right"
    ∧ ((org2mind exStream uuidA ["* A", "** A1", "* B"]).store.getD 3
        dummyNode).direction = "left" := by
  constructor
  · rw [C6_direction exStream uuidA ["* A", "** A1", "* B"] 0 (by decide)
      (by decide)]
    decide
  · rw [C6_direction exStream uuidA ["* A", "** A1", "* B"] 2 (by decide)
      (by decide)]
    decide

/-- C7: every depth-1 heading node carries a freshly drawn palette color as
its background — a palette member that differs from the allocator's
previously emitted color, i.e. from the previous depth-1 branch's background
(the root's background when it is the first depth-1 heading); every
non-depth-1 heading node carries the background of the nearest preceding
depth-1 node, and `none` when no depth-1 heading has occurred yet. -/
theorem C7_background (fs : FairStream) (u : Nat → String)
    (lines : List String) :
    (∀ k, k < ((headsOf lines).map Prod.fst).length →
        ((headsOf lines).map Prod.fst).getD k 0 = 1 →
        ∃ c, ((org2mind fs u lines).store.getD (k + 1)
              dummyNode).background_color = some c
          ∧ c ∈ colors
          ∧ some c ≠ (match lastEq1 (((headsOf lines).map Prod.fst).take k) with
              | none => ((org2mind fs u lines).store.getD 0
                  dummyNode).background_color
              | some j => ((org2mind fs u lines).store.getD (j + 1)
                  dummyNode).background_color))
    ∧ (∀ k, k < ((headsOf lines).map Prod.fst).length →
        ((headsOf lines).map Prod.fst).getD k 0 ≠ 1 →
        ((org2mind fs u lines).store.getD (k + 1) dummyNode).background_color
          = match lastEq1 (((headsOf lines).map Prod.fst).take k) with
            | none => none
            | some j => ((org2mind fs u lines).store.getD (j + 1)
                dummyNode).background_color) := by
  constructor
  · intro k hk h1
    obtain ⟨c, hc, hmem, hne⟩ := (inv_org2mind fs u lines).hbg1 k hk h1
    have hroot := (inv_org2mind fs u lines).hroot_bg
    rw [core_store_eq, core_getD] at hc hroot
    rw [core_store_eq] at hne
    refine ⟨c, hc, hmem, ?_⟩
    cases hE : lastEq1 (((headsOf lines).map Prod.fst).take k) with
    | none =>
      simp only [hE] at hne ⊢
      have hroot' : ((org2mind fs u lines).store.getD 0
          dummyNode).background_color = some (rootColor fs) := hroot
      rw [hroot']
      exact hne
    | some j =>
      simp only [hE] at hne ⊢
      rw [core_getD] at hne
      exact hne
  · intro k hk h1
    have h := (inv_org2mind fs u lines).hbg0 k hk h1
    rw [core_store_eq] at h
    cases hE : lastEq1 (((headsOf lines).map Prod.fst).take k) with
    | none =>
      simp only [hE] at h ⊢
      rw [core_getD] at h
      exact h
    | some j =>
      simp only [hE] at h ⊢
      rw [core_getD, core_getD] at h
      exact h

theorem C7_background_witness :
    ((org2mind exStream uuidA ["*** Deep", "* A", "** A1"]).store.getD 1
        dummyNode).background_color = none
    ∧ ((org2mind exStream uuidA ["*** Deep", "* A", "** A1"]).store.getD 3
        dummyNode).background_color
      = ((org2mind exStream uuidA ["*** Deep", "* A", "** A1"]).store.getD 2
        dummyNode).background_color
    ∧ ((org2mind exStream uuidA ["*** Deep", "* A", "** A1"]).store.getD 2
        dummyNode).background_color
      ≠ ((org2mind exStream uuidA ["*** Deep", "* A", "** A1"]).store.getD 0
        dummyNode).background_color := by
  have h := C7_background exStream uuidA ["*** Deep", "* A", "** A1"]
  refine ⟨?_, ?_, ?_⟩
  · rw [h.2 0 (by decide) (by decide)]
    decide
  · rw [h.2 2 (by decide) (by decide)]
    decide
  · obtain ⟨c, hc, hmem, hne⟩ := h.1 1 (by decide) (by decide)
    have hE : lastEq1 (((headsOf ["*** Deep", "* A", "** A1"]).map
        Prod.fst).take 1) = none := by decide
    simp only [hE] at hne
    rw [hc]
    exact hne

/-- C10: the first depth-1 heading's background differs from the root's
background: the allocator's single `last_color` cell is shared between the
root draw and the branch draws, and a draw never repeats the remembered
color. -/
theorem C10_root_color (fs : FairStream) (u : Nat → String)
    (lines : List String) (k : Nat)
    (hk : k < ((headsOf lines).map Prod.fst).length)
    (h1 : ((headsOf lines).map Prod.fst).getD k 0 = 1)
    (hfirst : ∀ j, j < k → ((headsOf lines).map Prod.fst).getD j 0 ≠ 1) :
    ((org2mind fs u lines).store.getD (k + 1) dummyNode).background_color
      ≠ ((org2mind fs u lines).store.getD 0 dummyNode).background_color := by
  have hinv := inv_org2mind fs u lines
  obtain ⟨c, hc, hmem, hne⟩ := hinv.hbg1 k hk h1
  have hroot := hinv.hroot_bg
  have hEnone : lastEq1 (((headsOf lines).map Prod.fst).take k) = none := by
    rw [lastEq1_none_iff]
    intro m hm
    have hmk : m < k := by
      have hlt : (((headsOf lines).map Prod.fst).take k).length ≤ k := by
        rw [List.length_take]
        exact Nat.min_le_left _ _
      omega
    rw [getD_take hmk]
    exact hfirst m hmk
  simp only [hEnone] at hne
  rw [core_store_eq, core_getD] at hc hroot
  have hc' : ((org2mind fs u lines).store.getD (k + 1)
      dummyNode).background_color = some c := hc
  have hroot' : ((org2mind fs u lines).store.getD 0
      dummyNode).background_color = some (rootColor fs) := hroot
  rw [hc', hroot']
  exact hne

theorem C10_root_color_witness :
    ((org2mind exStream uuidA ["* A"]).store.getD 1
        dummyNode).background_color
      ≠ ((org2mind exStream uuidA ["* A"]).store.getD 0
        dummyNode).background_color :=
  C10_root_color exStream uuidA ["* A"] 0 (by decide) (by decide)
    (fun j hj => absurd hj (Nat.not_lt_zero j))


/-! ## Claim theorems: allocator sequence, termination, permissive parsing -/

theorem colorSeq_length (fs : FairStream) :
    ∀ (n pos : Nat) (last : Option String),
      (colorSeq fs n pos last).length = n := by
  intro n
  induction n with
  | zero => intro pos last; rfl
  | succ m ih =>
    intro pos last
    simp only [colorSeq, List.length_cons, ih]

/-- C5: every emitted color is a palette member, and no emitted color equals
the immediately preceding one (the allocator keeps exactly the last emitted
color as state and redraws on collision). -/
theorem C5_alloc (fs : FairStream) :
    ∀ (n pos : Nat) (last : Option String),
      (∀ c ∈ colorSeq fs n pos last, c ∈ colors)
      ∧ (∀ i, i + 1 < (colorSeq fs n pos last).length →
          (colorSeq fs n pos last).getD (i + 1) ""
            ≠ (colorSeq fs n pos last).getD i "") := by
  intro n
  induction n with
  | zero =>
    intro pos last
    constructor
    · intro c hc
      simp [colorSeq] at hc
    · intro i hi
      simp [colorSeq] at hi
  | succ m ih =>
    intro pos last
    constructor
    · intro c hc
      simp only [colorSeq] at hc
      rcases List.mem_cons.mp hc with h | h
      · rw [h]
        exact random_color_mem fs pos last
      · exact (ih _ _).1 c h
    · intro i hi
      simp only [colorSeq] at hi ⊢
      cases i with
      | zero =>
        rw [List.getD_cons_succ, List.getD_cons_zero]
        cases m with
        | zero => simp [colorSeq] at hi
        | succ m' =>
          simp only [colorSeq, List.getD_cons_zero]
          exact random_color_ne fs (random_color fs pos last).2
            (random_color fs pos last).1
      | succ i' =>
        rw [List.getD_cons_succ, List.getD_cons_succ]
        apply (ih (random_color fs pos last).2
          (some (random_color fs pos last).1)).2
        simpa using hi

theorem C5_alloc_witness :
    (colorSeq exStream 3 0 none).getD 1 "" ≠ (colorSeq exStream 3 0 none).getD 0 ""
    ∧ "#5EBD3E" ∈ colors :=
  ⟨(C5_alloc exStream 3 0 none).2 0 (by decide),
   (C5_alloc exStream 1 0 none).1 "#5EBD3E" (by decide)⟩

/-- C8: the conversion terminates.  The parse is the total fold `org2mind`
(one bounded pass producing one node per heading plus the root), and the
allocator's retry loop always exits within the fairness bound. -/
theorem C8_terminating (fs : FairStream) (c : String) (pos : Nat)
    (u : Nat → String) (lines : List String) :
    (∃ i, searchFrom fs.s c pos (fs.bound + 1) = some i
      ∧ pos ≤ i ∧ i ≤ pos + fs.bound)
    ∧ (org2mind fs u lines).store.length = (headsOf lines).length + 1 := by
  constructor
  · obtain ⟨i, h1, h2, h3, _⟩ := searchFrom_terminates fs c pos
    exact ⟨i, h1, h2, h3⟩
  · have h := (inv_org2mind fs u lines).hlen
    rw [core_store_eq, List.length_map, List.length_map] at h
    exact h

/-- A line that is blank after stripping, or that matches neither the
metadata regex nor the heading regex, leaves the state untouched. -/
theorem processLine_skip (fs : FairStream) (u : Nat → String)
    (st : ParseState) (l : String)
    (h : pyStripList l.toList = []
      ∨ (matchMeta (pyStripList l.toList) = none
        ∧ matchHeading (pyStripList l.toList) = none)) :
    processLine fs u st l = st := by
  rw [processLine]
  by_cases hb : pyStripList l.toList = []
  · rw [if_pos hb]
  · rw [if_neg hb]
    rcases h with h | ⟨hm, hh⟩
    · exact absurd h hb
    · simp only [hm, hh]

/-- C9: a blank or non-matching line has no effect at all — parsing with the
line present yields exactly the same metadata and tree as parsing with it
absent, and the parse never fails (the parser is a total function). -/
theorem C9_skip (fs : FairStream) (u : Nat → String) (xs : List String)
    (l : String) (ys : List String)
    (h : pyStripList l.toList = []
      ∨ (matchMeta (pyStripList l.toList) = none
        ∧ matchHeading (pyStripList l.toList) = none)) :
    org2mind fs u (xs ++ l :: ys) = org2mind fs u (xs ++ ys) := by
  rw [org2mind, org2mind, List.foldl_append, List.foldl_append,
    List.foldl_cons, processLine_skip fs u _ l h]

theorem C9_skip_witness :
    org2mind exStream uuidA (["* A"] ++ "just text" :: ["** B"])
      = org2mind exStream uuidA (["* A"] ++ ["** B"]) :=
  C9_skip exStream uuidA ["* A"] "just text" ["** B"]
    (Or.inr ⟨by decide, by decide⟩)


/-! ## Claim theorems: the `version` metadata entry -/

theorem metaLookup_cons (x : String × MetaValue)
    (m : List (String × MetaValue)) (k : String) :
    metaLookup (x :: m) k
      = if x.1 = k then some x.2 else metaLookup m k := by
  by_cases hx : x.1 = k
  · simp [metaLookup, List.find?, hx]
  · simp [metaLookup, List.find?, hx]

theorem metaInsert_lookup_ne {k k' : String} (hne : k' ≠ k) (v : MetaValue) :
    ∀ m : List (String × MetaValue),
      metaLookup (metaInsert m k v) k' = metaLookup m k' := by
  intro m
  rw [metaInsert]
  by_cases hany : m.any (fun p => p.1 = k)
  · rw [if_pos hany]
    clear hany
    induction m with
    | nil => rfl
    | cons x xs ih =>
      rw [List.map_cons, metaLookup_cons, metaLookup_cons, ih]
      by_cases hx : x.1 = k
      · rw [if_pos hx]
        rw [if_neg (fun h => hne h.symm), if_neg (by rw [hx]; exact fun h => hne h.symm)]
      · rw [if_neg hx]
  · rw [if_neg hany]
    clear hany
    induction m with
    | nil =>
      rw [List.nil_append, metaLookup_cons,
        if_neg (fun h => hne h.symm)]
    | cons x xs ih =>
      rw [List.cons_append, metaLookup_cons, metaLookup_cons, ih]

theorem metaInsert_lookup_self (k : String) (v : MetaValue) :
    ∀ m : List (String × MetaValue),
      metaLookup (metaInsert m k v) k = some v := by
  intro m
  rw [metaInsert]
  by_cases hany : m.any (fun p => p.1 = k)
  · rw [if_pos hany]
    induction m with
    | nil => simp at hany
    | cons x xs ih =>
      rw [List.map_cons, metaLookup_cons]
      by_cases hx : x.1 = k
      · rw [if_pos hx]
        rw [if_pos rfl]
      · rw [if_neg hx]
        rw [if_neg hx]
        apply ih
        rcases List.any_eq_true.mp hany with ⟨p, hp, hpk⟩
        rcases List.mem_cons.mp hp with h | h
        · subst h
          exact absurd (of_decide_eq_true hpk) hx
        · exact List.any_eq_true.mpr ⟨p, h, hpk⟩
  · rw [if_neg hany]
    induction m with
    | nil =>
      rw [List.nil_append, metaLookup_cons, if_pos rfl]
    | cons x xs ih =>
      have hx : ¬(x.1 = k) := by
        intro hc
        exact hany (List.any_eq_true.mpr ⟨x, by simp, by simpa using hc⟩)
      rw [List.cons_append, metaLookup_cons, if_neg hx]
      apply ih
      intro hc
      rcases List.any_eq_true.mp hc with ⟨p, hp, hpk⟩
      exact hany (List.any_eq_true.mpr ⟨p, by simp [hp], hpk⟩)

theorem processHeading_meta (fs : FairStream) (u : Nat → String)
    (st : ParseState) (hd : Nat × List Char) :
    (processHeading fs u st hd).meta = st.meta := by
  by_cases h1 : hd.1 = 1 <;> simp [processHeading, h1]

theorem processLine_meta (fs : FairStream) (u : Nat → String)
    (st : ParseState) (l : String) :
    (processLine fs u st l).meta
      = match matchMeta (pyStripList l.toList) with
        | some kv => metaInsert st.meta (String.mk kv.1)
            (MetaValue.str (String.mk kv.2))
        | none => st.meta := by
  rw [processLine]
  by_cases hb : pyStripList l.toList = []
  · rw [if_pos hb, hb]
    rfl
  · rw [if_neg hb]
    rcases hm : matchMeta (pyStripList l.toList) with _ | kv
    · dsimp only
      rcases hh : matchHeading (pyStripList l.toList) with _ | hd
      · rfl
      · rw [processHeading_meta]
    · dsimp only
      rw [matchHeading_of_matchMeta hm]

theorem version_isSome_foldl (fs : FairStream) (u : Nat → String) :
    ∀ (lines : List String) (st : ParseState),
      (metaLookup st.meta "version").isSome = true →
      (metaLookup ((lines.foldl (processLine fs u) st)).meta
        "version").isSome = true := by
  intro lines
  induction lines with
  | nil => intro st h; exact h
  | cons l ls ih =>
    intro st h
    rw [List.foldl_cons]
    apply ih
    rw [processLine_meta]
    rcases hm : matchMeta (pyStripList l.toList) with _ | kv
    · exact h
    · dsimp only
      by_cases hk : "version" = String.mk kv.1
      · rw [← hk, metaInsert_lookup_self]
        rfl
      · rw [metaInsert_lookup_ne hk]
        exact h

theorem version_value_foldl (fs : FairStream) (u : Nat → String) :
    ∀ (lines : List String) (st : ParseState),
      (∀ l ∈ lines, ∀ kv, matchMeta (pyStripList l.toList) = some kv →
        String.mk kv.1 ≠ "version") →
      metaLookup st.meta "version" = some (MetaValue.num (0.2 : ℚ)) →
      metaLookup ((lines.foldl (processLine fs u) st)).meta "version"
        = some (MetaValue.num (0.2 : ℚ)) := by
  intro lines
  induction lines with
  | nil => intro st _ h; exact h
  | cons l ls ih =>
    intro st hkeys h
    rw [List.foldl_cons]
    apply ih _ (fun l' hl' => hkeys l' (by simp [hl']))
    rw [processLine_meta]
    rcases hm : matchMeta (pyStripList l.toList) with _ | kv
    · exact h
    · dsimp only
      have hne : String.mk kv.1 ≠ "version" := hkeys l (by simp) kv hm
      rw [metaInsert_lookup_ne (fun hc => hne hc.symm)]
      exact h

/-- C3 (amended): the metadata always contains a `version` entry; when no
input line declares a `version` key, its value is the Python float `0.2`
(a number, not the string "0.2"). -/
theorem C3_version (fs : FairStream) (u : Nat → String) (lines : List String) :
    (metaLookup (org2mind fs u lines).meta "version").isSome = true
    ∧ ((∀ l ∈ lines, ∀ kv, matchMeta (pyStripList l.toList) = some kv →
          String.mk kv.1 ≠ "version") →
        metaLookup (org2mind fs u lines).meta "version"
          = some (MetaValue.num (0.2 : ℚ))) := by
  constructor
  · exact version_isSome_foldl fs u lines (initState fs u) rfl
  · intro hkeys
    exact version_value_foldl fs u lines (initState fs u) hkeys rfl

theorem C3_version_witness :
    metaLookup (org2mind exStream uuidA ["#+a: b", "* A"]).meta "version"
      = some (MetaValue.num (0.2 : ℚ)) := by
  apply (C3_version exStream uuidA ["#+a: b", "* A"]).2
  intro l hl kv hkv
  rcases List.mem_cons.mp hl with h1 | h1
  · subst h1
    have hcomp : matchMeta (pyStripList "#+a: b".toList)
        = some (['a'], ['b']) := by decide
    rw [hcomp] at hkv
    injection hkv with hkv
    rw [← hkv]
    decide
  · rcases List.mem_cons.mp h1 with h2 | h2
    · subst h2
      have hcomp : matchMeta (pyStripList "* A".toList) = none := by decide
      rw [hcomp] at hkv
      exact absurd hkv (by simp)
    · simp at h2

/-- C3 counterexample: the default `version` value is the number `0.2`
(`meta = {'version': 0.2}` in the source), not the string "0.2" the claim
asserts. -/
theorem C3_counterexample :
    metaLookup (org2mind exStream uuidA []).meta "version"
        = some (MetaValue.num (0.2 : ℚ))
    ∧ MetaValue.num (0.2 : ℚ) ≠ MetaValue.str "0.2" := by
  refine ⟨rfl, fun h => MetaValue.noConfusion h⟩


/-! ## Claim theorems: determinism and the uuid entropy source -/

/-- Erase the uuid-derived `id` of a node. -/
def eraseId (n : Node) : Node := { n with id := "" }

/-- Erase every node id in a parse state: the projection of the output that
does not depend on the uuid4 entropy source. -/
def eraseIds (st : ParseState) : ParseState :=
  { st with store := st.store.map eraseId }

theorem erase_level_getD (store : List Node) (i : Nat) :
    ((Option.map eraseId store[i]?).getD dummyNode).level
      = (store[i]?.getD dummyNode).level := by
  cases h : store[i]? <;> simp [eraseId, dummyNode]

theorem eraseIds_processHeading (fs : FairStream) (u : Nat → String)
    (st : ParseState) (hd : Nat × List Char) :
    eraseIds (processHeading fs u st hd)
      = processHeading fs (fun _ => "") (eraseIds st) hd := by
  have hmod : ∀ (store : List Node) (t j : Nat),
      (modifyAt store t (fun n => { n with children := n.children ++ [j] })).map
          eraseId
        = modifyAt (store.map eraseId) t
            (fun n => { n with children := n.children ++ [j] }) :=
    fun store t j => modifyAt_map eraseId
      (fun n => { n with children := n.children ++ [j] })
      (fun n => { n with children := n.children ++ [j] })
      (fun x => rfl) store t
  by_cases h1 : hd.1 = 1 <;>
    simp [processHeading, eraseIds, h1, List.map_append, List.length_map,
      hmod, erase_level_getD, eraseId]

theorem eraseIds_processLine (fs : FairStream) (u : Nat → String)
    (st : ParseState) (l : String) :
    eraseIds (processLine fs u st l)
      = processLine fs (fun _ => "") (eraseIds st) l := by
  rw [processLine, processLine]
  by_cases hb : pyStripList l.toList = []
  · rw [if_pos hb, if_pos hb]
  · rw [if_neg hb, if_neg hb]
    rcases hm : matchMeta (pyStripList l.toList) with _ | kv
    · dsimp only
      rcases hh : matchHeading (pyStripList l.toList) with _ | hd
      · rfl
      · exact eraseIds_processHeading fs u st hd
    · dsimp only
      rw [matchHeading_of_matchMeta hm]
      by_cases ht : (String.mk kv.1).toLower = "title"
      · have hmap := modifyAt_map eraseId
          (fun n => { n with topic := String.mk kv.2 })
          (fun n => { n with topic := String.mk kv.2 })
          (fun x => rfl) st.store 0
        simp only [ht, ite_true, eraseIds, hmap]
      · simp [ht, eraseIds]

theorem eraseIds_initState (fs : FairStream) (u : Nat → String) :
    eraseIds (initState fs u) = initState fs (fun _ => "") := by
  simp [initState, eraseIds, eraseId]

theorem eraseIds_org2mind (fs : FairStream) (u : Nat → String)
    (lines : List String) :
    eraseIds (org2mind fs u lines) = org2mind fs (fun _ => "") lines := by
  rw [org2mind, org2mind, ← eraseIds_initState fs u]
  generalize initState fs u = st
  induction lines generalizing st with
  | nil => rfl
  | cons l ls ih =>
    rw [List.foldl_cons, List.foldl_cons, ih, eraseIds_processLine]

/-- C2 (amended): everything in the parse result except the uuid-derived node
ids is a pure function of the input document and the seeded random stream:
changing only the uuid entropy leaves the id-erased output unchanged. -/
theorem C2_det_modulo_ids (fs : FairStream) (u1 u2 : Nat → String)
    (lines : List String) :
    eraseIds (org2mind fs u1 lines) = eraseIds (org2mind fs u2 lines) := by
  rw [eraseIds_org2mind, eraseIds_org2mind]

/-- C2 counterexample: two conversions of the same document with the same
seeded color stream but different uuid4 entropy produce different outputs —
the node ids differ, so the output is not a pure function of document plus
seed. -/
theorem C2_counterexample :
    ((org2mind exStream uuidA ["* A"]).store.getD 1 dummyNode).id
      ≠ ((org2mind exStream uuidB ["* A"]).store.getD 1 dummyNode).id := by
  decide

end O2M
